import Mathlib

/-!
Verification of the output-parsing layer of the python-vagrant repository
(`vagrant/__init__.py`), shallowly embedded in Lean 4.

Python strings are modelled as Lean `String`s; character-level work is done
on `String.toList`.  Line boundaries are modelled as the newline character
(the inputs handled by the library are newline-delimited command output).
Python's whitespace set is modelled by `Char.isWhitespace`.
Fallible Python code (exceptions) is modelled by `Except PyErr`.
-/

/-- Python exception classes that the embedded code can raise.
`parseError` never occurs in the source; it is the exception class that the
specification postulates, included so statements can contrast it with the
exceptions the code actually raises. -/
inductive PyErr where
  | valueError : PyErr
  | indexError : PyErr
  | keyError : PyErr
  | parseError (line : String) : PyErr
deriving DecidableEq, Repr

/-- Model of Python `str.strip()` on a character list: remove leading and
trailing whitespace. -/
def pyStrip (cs : List Char) : List Char :=
  ((cs.dropWhile Char.isWhitespace).reverse.dropWhile Char.isWhitespace).reverse

/-- Model of Python `str.strip()` on strings. -/
def pyStripS (s : String) : String :=
  ⟨pyStrip s.toList⟩

/-- Model of Python `str.startswith(pre)`. -/
def pyStartsWith (s pre : String) : Bool :=
  pre.toList.isPrefixOf s.toList

/-- Model of Python `str.split(sep, maxsplit)` for a single-character
separator: split at the first `fuel` occurrences of `sep`; any remaining
text, separators included, stays in the last field. -/
def splitMax (sep : Char) : Nat → List Char → List (List Char)
  | _, [] => [[]]
  | 0, cs => [cs]
  | n + 1, c :: rest =>
    if c = sep then
      [] :: splitMax sep n rest
    else
      match splitMax sep (n + 1) rest with
      | [] => [[c]]
      | f :: fs => (c :: f) :: fs

/-- Model of Python `str.split(',', maxsplit)` on strings. -/
def pySplitComma (maxsplit : Nat) (s : String) : List String :=
  (splitMax ',' maxsplit s.toList).map (fun cs => (⟨cs⟩ : String))

/-- Split a character list at every occurrence of a character (no maxsplit). -/
def splitAll (sep : Char) : List Char → List (List Char)
  | [] => [[]]
  | c :: rest =>
    if c = sep then
      [] :: splitAll sep rest
    else
      match splitAll sep rest with
      | [] => [[c]]
      | f :: fs => (c :: f) :: fs

/-- Model of Python `str.splitlines()` with the newline character as the line
boundary: split at every newline and drop the trailing empty piece produced
by a final newline (Python yields no trailing empty line there). -/
def pySplitlines (s : String) : List String :=
  let parts := splitAll '\n' s.toList
  let parts := if parts.getLast? = some [] then parts.dropLast else parts
  parts.map (fun cs => (⟨cs⟩ : String))

/-- The record kinds that `Vagrant._parse_machine_readable_output` filters
out: `x[2] not in ["metadata", "ui", "action"]`. -/
def noiseKinds : List String := ["metadata", "ui", "action"]

/-- The filtering pass of `Vagrant._parse_machine_readable_output`:
`filter(lambda x: x[2] not in ["metadata", "ui", "action"], parsed_lines)`.
Indexing `x[2]` on a row with fewer than three fields raises `IndexError`. -/
def machineReadableFilter : List (List String) → Except PyErr (List (List String))
  | [] => .ok []
  | x :: rest =>
    match x[2]? with
    | none => .error .indexError
    | some k =>
      if k ∈ noiseKinds then
        machineReadableFilter rest
      else
        (machineReadableFilter rest).map (fun r => x :: r)

/-- The row lists produced by the comprehension in
`Vagrant._parse_machine_readable_output`:
`[line.split(',', 4) for line in output.splitlines() if line.strip()]`. -/
def mrFields (output : String) : List (List String) :=
  ((pySplitlines output).filter (fun l => pyStripS l ≠ "")).map
    (fun l => pySplitComma 4 l)

/-- Embedding of `Vagrant._parse_machine_readable_output`. -/
def parse_machine_readable_output (output : String) : Except PyErr (List (List String)) :=
  machineReadableFilter (mrFields output)

/-! ### Basic lemmas about the string models -/

theorem toList_append (s t : String) : (s ++ t).toList = s.toList ++ t.toList := by
  cases s; cases t; rfl

theorem splitMax_of_not_mem (sep : Char) (fuel : Nat) (cs : List Char)
    (h : sep ∉ cs) : splitMax sep fuel cs = [cs] := by
  induction cs generalizing fuel with
  | nil => cases fuel <;> rfl
  | cons c rest ih =>
    cases fuel with
    | zero => rfl
    | succ n =>
      have hc : ¬ c = sep := fun hcs => h (hcs ▸ List.mem_cons_self c rest)
      have hrest : sep ∉ rest := fun hm => h (List.mem_cons_of_mem c hm)
      simp only [splitMax, if_neg hc, ih (n + 1) hrest]

theorem splitMax_append (sep : Char) (n : Nat) (cs ds : List Char)
    (h : sep ∉ cs) :
    splitMax sep (n + 1) (cs ++ sep :: ds) = cs :: splitMax sep n ds := by
  induction cs with
  | nil =>
    simp [splitMax]
  | cons c rest ih =>
    have hc : ¬ c = sep := fun hcs => h (hcs ▸ List.mem_cons_self c rest)
    have hrest : sep ∉ rest := fun hm => h (List.mem_cons_of_mem c hm)
    simp only [List.cons_append, splitMax, if_neg hc, List.append_eq, ih hrest]

theorem splitAll_of_not_mem (sep : Char) (cs : List Char)
    (h : sep ∉ cs) : splitAll sep cs = [cs] := by
  induction cs with
  | nil => rfl
  | cons c rest ih =>
    have hc : ¬ c = sep := fun hcs => h (hcs ▸ List.mem_cons_self c rest)
    have hrest : sep ∉ rest := fun hm => h (List.mem_cons_of_mem c hm)
    simp only [splitAll, if_neg hc, ih hrest]

theorem splitAll_append (sep : Char) (cs ds : List Char)
    (h : sep ∉ cs) :
    splitAll sep (cs ++ sep :: ds) = cs :: splitAll sep ds := by
  induction cs with
  | nil => simp [splitAll]
  | cons c rest ih =>
    have hc : ¬ c = sep := fun hcs => h (hcs ▸ List.mem_cons_self c rest)
    have hrest : sep ∉ rest := fun hm => h (List.mem_cons_of_mem c hm)
    simp only [List.cons_append, splitAll, if_neg hc, List.append_eq, ih hrest]

theorem pyStrip_ne_nil_of_mem (cs : List Char) (c : Char)
    (hc : c ∈ cs) (hw : ¬ c.isWhitespace) : pyStrip cs ≠ [] := by
  intro hnil
  unfold pyStrip at hnil
  rw [List.reverse_eq_nil_iff, List.dropWhile_eq_nil_iff] at hnil
  have hall : ∀ a ∈ cs.dropWhile Char.isWhitespace, Char.isWhitespace a := by
    intro a ha
    exact hnil a (by simpa using List.mem_reverse.mpr ha)
  have hcs : ∀ a ∈ cs, Char.isWhitespace a := by
    intro a ha
    rcases List.mem_append.mp
        ((List.takeWhile_append_dropWhile (p := Char.isWhitespace) (l := cs)) ▸ ha) with h1 | h2
    · exact List.mem_takeWhile_imp h1
    · exact hall a h2
  exact hw (hcs c hc)

/-- A decoded row whose third field is one of the ignorable noise kinds. -/
def isNoiseRow (x : List String) : Bool :=
  match x[2]? with
  | some k => decide (k ∈ noiseKinds)
  | none => false

theorem machineReadableFilter_error (xs : List (List String))
    (hex : ∃ x ∈ xs, x.length < 3) :
    machineReadableFilter xs = .error .indexError := by
  induction xs with
  | nil => rcases hex with ⟨x, hx, _⟩; cases hx
  | cons y rest ih =>
    rcases hex with ⟨x, hx, hlen⟩
    rcases List.mem_cons.mp hx with rfl | hxr
    · have hnone : x[2]? = none := by
        rw [List.getElem?_eq_none_iff]; omega
      simp [machineReadableFilter, hnone]
    · cases hy : y[2]? with
      | none => simp [machineReadableFilter, hy]
      | some k =>
        have hr := ih ⟨x, hxr, hlen⟩
        by_cases hk : k ∈ noiseKinds
        · simp [machineReadableFilter, hy, if_pos hk, hr]
        · simp [machineReadableFilter, hy, if_neg hk, hr, Except.map]

theorem machineReadableFilter_ok (xs : List (List String))
    (hall : ∀ x ∈ xs, 3 ≤ x.length) :
    machineReadableFilter xs = .ok (xs.filter (fun x => !(isNoiseRow x))) := by
  induction xs with
  | nil => rfl
  | cons y rest ih =>
    have hy3 : 3 ≤ y.length := hall y (List.mem_cons_self y rest)
    have h2 : (2 : Nat) < y.length := by omega
    have hy : y[2]? = some (y[2]) := List.getElem?_eq_getElem h2
    have hr := ih (fun x hx => hall x (List.mem_cons_of_mem y hx))
    by_cases hk : y[2] ∈ noiseKinds
    · have hnoise : isNoiseRow y = true := by simp [isNoiseRow, hy, hk]
      simp [machineReadableFilter, hy, if_pos hk, hr, List.filter_cons, hnoise]
    · have hnoise : isNoiseRow y = false := by simp [isNoiseRow, hy, hk]
      simp [machineReadableFilter, hy, if_neg hk, hr, List.filter_cons, hnoise,
        Except.map]

theorem machineReadableFilter_no_noise (xs res : List (List String))
    (h : machineReadableFilter xs = .ok res) :
    ∀ x ∈ res, isNoiseRow x = false := by
  induction xs generalizing res with
  | nil =>
    simp only [machineReadableFilter, Except.ok.injEq] at h
    subst h; intro x hx; cases hx
  | cons y rest ih =>
    cases hy : y[2]? with
    | none => simp [machineReadableFilter, hy] at h
    | some k =>
      by_cases hk : k ∈ noiseKinds
      · simp only [machineReadableFilter, hy, if_pos hk] at h
        exact ih res h
      · simp only [machineReadableFilter, hy, if_neg hk] at h
        cases hrec : machineReadableFilter rest with
        | error e => rw [hrec] at h; simp [Except.map] at h
        | ok r =>
          rw [hrec] at h
          simp only [Except.map, Except.ok.injEq] at h
          subst h
          intro x hx
          rcases List.mem_cons.mp hx with rfl | hxr
          · simp [isNoiseRow, hy, hk]
          · exact ih r hrec x hxr

theorem mk_toList (s : String) : (⟨s.toList⟩ : String) = s := by
  cases s; rfl

theorem splitMax_zero (sep : Char) (cs : List Char) : splitMax sep 0 cs = [cs] := by
  cases cs <;> rfl

/-- C1 counterexample: the line `1,2,3,4,5,6` is non-blank and its third
field is not a noise kind, yet the decoder splits it into five fields, and
the fourth field is `4` alone rather than the whole remainder `4,5,6`.
This refutes the claim that each line is split into at most 4 fields with
all remaining text in the fourth field. -/
theorem C1_counterexample :
    parse_machine_readable_output "1,2,3,4,5,6" = .ok [["1", "2", "3", "4", "5,6"]]
    ∧ ¬ (["1", "2", "3", "4", "5,6"] : List String).length ≤ 4
    ∧ (["1", "2", "3", "4", "5,6"] : List String)[3]? = some "4"
    ∧ ("4" : String) ≠ "4,5,6" := by
  refine ⟨rfl, by decide, rfl, by decide⟩

/-- C1 (amended): the machine-readable decoder splits each non-blank line at
the first FOUR commas into at most five fields; the first four fields are
taken at the first four commas and all remaining text of the line, embedded
commas included, becomes the fifth field verbatim.  Here the components
`a,b,c,d` are comma-free, none contains a newline, and `c` is not a noise
kind; `e` may contain commas and is returned verbatim. -/
theorem C1_amended (a b c d e : String)
    (ha : ',' ∉ a.toList) (hb : ',' ∉ b.toList) (hc : ',' ∉ c.toList)
    (hd : ',' ∉ d.toList)
    (hna : '\n' ∉ a.toList) (hnb : '\n' ∉ b.toList) (hnc : '\n' ∉ c.toList)
    (hnd : '\n' ∉ d.toList) (hne : '\n' ∉ e.toList)
    (hkind : c ∉ noiseKinds) :
    parse_machine_readable_output (a ++ "," ++ b ++ "," ++ c ++ "," ++ d ++ "," ++ e)
      = .ok [[a, b, c, d, e]] := by
  have hcomma : ("," : String).toList = [','] := rfl
  have hL : (a ++ "," ++ b ++ "," ++ c ++ "," ++ d ++ "," ++ e).toList
      = a.toList ++ ',' :: (b.toList ++ ',' :: (c.toList ++ ',' :: (d.toList ++ ',' :: e.toList))) := by
    simp [toList_append, hcomma]
  have hmemL : ',' ∈ a.toList ++ ',' :: (b.toList ++ ',' :: (c.toList ++ ',' :: (d.toList ++ ',' :: e.toList))) := by
    simp
  have hnl : '\n' ∉ a.toList ++ ',' :: (b.toList ++ ',' :: (c.toList ++ ',' :: (d.toList ++ ',' :: e.toList))) := by
    simp only [List.mem_append, List.mem_cons]
    push_neg
    exact ⟨hna, by decide, hnb, by decide, hnc, by decide, hnd, by decide, hne⟩
  have hLne : a.toList ++ ',' :: (b.toList ++ ',' :: (c.toList ++ ',' :: (d.toList ++ ',' :: e.toList))) ≠ [] := by
    intro h0
    rw [h0] at hmemL
    cases hmemL
  have h1 : pySplitlines (a ++ "," ++ b ++ "," ++ c ++ "," ++ d ++ "," ++ e)
      = [a ++ "," ++ b ++ "," ++ c ++ "," ++ d ++ "," ++ e] := by
    unfold pySplitlines
    rw [hL, splitAll_of_not_mem _ _ hnl]
    simp only [List.getLast?_singleton]
    rw [if_neg (fun h0 => hLne (Option.some.inj h0))]
    simp only [List.map]
    rw [← hL, mk_toList]
  have h2 : pyStripS (a ++ "," ++ b ++ "," ++ c ++ "," ++ d ++ "," ++ e) ≠ "" := by
    unfold pyStripS
    intro h0
    have hdata : pyStrip (a ++ "," ++ b ++ "," ++ c ++ "," ++ d ++ "," ++ e).toList = [] := by
      have := congrArg String.toList h0
      simpa using this
    rw [hL] at hdata
    exact pyStrip_ne_nil_of_mem _ ',' hmemL (by decide) hdata
  have h3 : pySplitComma 4 (a ++ "," ++ b ++ "," ++ c ++ "," ++ d ++ "," ++ e)
      = [a, b, c, d, e] := by
    unfold pySplitComma
    rw [hL, splitMax_append ',' 3 _ _ ha, splitMax_append ',' 2 _ _ hb,
      splitMax_append ',' 1 _ _ hc, splitMax_append ',' 0 _ _ hd, splitMax_zero]
    simp [mk_toList]
  have hfields : mrFields (a ++ "," ++ b ++ "," ++ c ++ "," ++ d ++ "," ++ e)
      = [[a, b, c, d, e]] := by
    unfold mrFields
    rw [h1]
    simp [List.filter_cons, h2, h3]
  have hget : (([a, b, c, d, e] : List String))[2]? = some c := rfl
  unfold parse_machine_readable_output
  rw [hfields]
  simp [machineReadableFilter, hget, if_neg hkind, Except.map]

/-- Witness for C1 (amended) at a concrete line whose data field embeds a
comma. -/
theorem C1_amended_witness :
    parse_machine_readable_output ("1" ++ "," ++ "w" ++ "," ++ "state" ++ "," ++ "x" ++ "," ++ "y,z")
      = .ok [["1", "w", "state", "x", "y,z"]] :=
  C1_amended "1" "w" "state" "x" "y,z" (by decide) (by decide) (by decide)
    (by decide) (by decide) (by decide) (by decide) (by decide) (by decide)
    (by decide)

/-- C2 counterexample: the line `a,b,c` is non-blank, has only 3
comma-delimited segments, and its third field `c` is not an ignorable noise
kind, yet the decoder raises no error at all: the 3-field row is returned in
the output.  This refutes the claim that such a line causes a `ParseError`. -/
theorem C2_counterexample :
    parse_machine_readable_output "a,b,c" = .ok [["a", "b", "c"]]
    ∧ (["a", "b", "c"] : List String).length < 4
    ∧ ("c" : String) ∉ noiseKinds := by
  refine ⟨rfl, by decide, by decide⟩

/-- C2 (amended): a non-blank line with fewer than 3 comma-delimited
segments makes the decoder fail with an `IndexError` (from indexing the
third field), not a `ParseError`; a stream whose non-blank lines all have at
least 3 segments never errors, and its result is exactly the rows whose
third field is not an ignorable noise kind — so rows with a non-noise third
field are returned even with fewer than 4 segments, and noise-kind rows
never raise and never appear in the output. -/
theorem C2_amended (output : String) :
    ((∃ x ∈ mrFields output, x.length < 3) →
        parse_machine_readable_output output = .error .indexError)
    ∧ ((∀ x ∈ mrFields output, 3 ≤ x.length) →
        parse_machine_readable_output output
          = .ok ((mrFields output).filter (fun x => !(isNoiseRow x))))
    ∧ (∀ res, parse_machine_readable_output output = .ok res →
        ∀ x ∈ res, isNoiseRow x = false) := by
  refine ⟨machineReadableFilter_error _, machineReadableFilter_ok _,
    fun res h => machineReadableFilter_no_noise _ res h⟩

/-- Witness for C2 (amended): the single line `a,b` has 2 segments and the
decode fails with `IndexError`; the stream `1,w,ui,x` then `1,w,state,s`
decodes with the noise `ui` row dropped. -/
theorem C2_amended_witness :
    ((∃ x ∈ mrFields "a,b", x.length < 3)
      ∧ parse_machine_readable_output "a,b" = .error .indexError)
    ∧ ((∀ x ∈ mrFields "1,w,ui,x\n1,w,state,s", 3 ≤ x.length)
      ∧ parse_machine_readable_output "1,w,ui,x\n1,w,state,s"
          = ((mrFields "1,w,ui,x\n1,w,state,s").filter (fun x => !(isNoiseRow x))
              |> Except.ok)) :=
  ⟨⟨by decide, (C2_amended "a,b").1 (by decide)⟩,
   ⟨by decide, (C2_amended "1,w,ui,x\n1,w,state,s").2.1 (by decide)⟩⟩

/-! ### Embedding of `Vagrant._parse_config` -/

/-- Model of Python `value.strip('"')`: remove ALL leading and trailing
double-quote characters (Python strips every character of the given set from
both ends, regardless of pairing). -/
def pyStripQuotes (s : String) : String :=
  ⟨((s.toList.dropWhile (fun c => c = '"')).reverse.dropWhile (fun c => c = '"')).reverse⟩

/-- Model of Python `s.split(None, 1)`: skip leading whitespace, take the
first whitespace-free token, then skip the whitespace run and keep the rest
of the string verbatim. -/
def pySplitNone1 (s : String) : List String :=
  let cs := s.toList.dropWhile Char.isWhitespace
  let tok := cs.takeWhile (fun c => !c.isWhitespace)
  let rest := (cs.dropWhile (fun c => !c.isWhitespace)).dropWhile Char.isWhitespace
  if tok = [] then []
  else if rest = [] then [(⟨tok⟩ : String)]
  else [(⟨tok⟩ : String), (⟨rest⟩ : String)]

/-- The loop of `Vagrant._parse_config`.  The configuration dict is modelled
as a function from keys to optional values; `key, value = line.strip().split(None, 1)`
raises `ValueError` when the split yields fewer than two parts. -/
def confLoop (started : Bool) (conf : String → Option String) :
    List String → Except PyErr (String → Option String)
  | [] => .ok conf
  | line :: rest =>
    let t := pyStripS line
    let started2 := started || pyStartsWith t "Host "
    if started2 = false ∨ t = "" ∨ pyStartsWith t "#" = true then
      confLoop started2 conf rest
    else
      match pySplitNone1 t with
      | [k, v] =>
        confLoop started2 (fun x => if x = k then some (pyStripQuotes v) else conf x) rest
      | _ => .error .valueError

/-- Embedding of `Vagrant._parse_config`. -/
def parse_config (s : String) : Except PyErr (String → Option String) :=
  confLoop false (fun _ => none) (pySplitlines s)

theorem dropWhile_ws_eq_self (cs : List Char)
    (h : ∀ c, cs.head? = some c → ¬ c.isWhitespace) :
    cs.dropWhile Char.isWhitespace = cs := by
  cases cs with
  | nil => rfl
  | cons a l => exact List.dropWhile_cons_of_neg (by simpa using h a rfl)

theorem mem_of_head?_some {α : Type} {l : List α} {a : α}
    (h : l.head? = some a) : a ∈ l := by
  cases l with
  | nil => cases h
  | cons x xs => exact (Option.some.inj h) ▸ List.mem_cons_self x xs

theorem getLast?_append_right (l m : List Char) (h : m ≠ []) :
    (l ++ m).getLast? = m.getLast? := by
  induction l with
  | nil => rfl
  | cons a l' ih =>
    rw [List.cons_append, List.getLast?_cons, ih]
    cases m with
    | nil => exact absurd rfl h
    | cons c ms => simp [List.getLast?_cons]

theorem pyStrip_eq_self (cs : List Char)
    (hh : ∀ c, cs.head? = some c → ¬ c.isWhitespace)
    (hl : ∀ c, cs.getLast? = some c → ¬ c.isWhitespace) :
    pyStrip cs = cs := by
  unfold pyStrip
  rw [dropWhile_ws_eq_self cs hh]
  cases hr : cs.reverse with
  | nil =>
    simp only [List.dropWhile_nil, List.reverse_nil]
    exact (List.reverse_eq_nil_iff.mp hr).symm
  | cons b m =>
    have hb : cs.getLast? = some b := by
      rw [← List.head?_reverse, hr]; rfl
    rw [List.dropWhile_cons_of_neg (by simpa using hl b hb), ← hr,
      List.reverse_reverse]

theorem pyStrip_eq_self_of_all (cs : List Char)
    (h : ∀ c ∈ cs, ¬ c.isWhitespace) : pyStrip cs = cs := by
  refine pyStrip_eq_self cs (fun c hc => h c (mem_of_head?_some hc))
    (fun c hc => h c ?_)
  refine List.mem_reverse.mp (mem_of_head?_some ?_)
  rw [List.head?_reverse]
  exact hc

theorem confLoop_skip_no_marker (pre post : List String) (conf : String → Option String)
    (h : ∀ l ∈ pre, pyStartsWith (pyStripS l) "Host " = false) :
    confLoop false conf (pre ++ post) = confLoop false conf post := by
  induction pre with
  | nil => rfl
  | cons l pre' ih =>
    have hl : pyStartsWith (pyStripS l) "Host " = false := h l (List.mem_cons_self _ _)
    have hrest : ∀ x ∈ pre', pyStartsWith (pyStripS x) "Host " = false :=
      fun x hx => h x (List.mem_cons_of_mem _ hx)
    rw [List.cons_append]
    rw [show confLoop false conf (l :: (pre' ++ post))
        = if (false || pyStartsWith (pyStripS l) "Host ") = false
            ∨ pyStripS l = "" ∨ pyStartsWith (pyStripS l) "#" = true
          then confLoop (false || pyStartsWith (pyStripS l) "Host ") conf (pre' ++ post)
          else match pySplitNone1 (pyStripS l) with
            | [k, v] => confLoop (false || pyStartsWith (pyStripS l) "Host ")
                (fun x => if x = k then some (pyStripQuotes v) else conf x) (pre' ++ post)
            | _ => .error .valueError
      from rfl]
    rw [hl]
    simp only [Bool.or_false]
    rw [if_pos (Or.inl trivial)]
    exact ih hrest

theorem confLoop_marker_step (v : String) (rest : List String)
    (conf : String → Option String)
    (hne : v.toList ≠ [])
    (hh : ∀ c, v.toList.head? = some c → ¬ c.isWhitespace)
    (hl : ∀ c, v.toList.getLast? = some c → ¬ c.isWhitespace) :
    confLoop false conf (("Host " ++ v) :: rest)
      = confLoop true (fun x => if x = "Host" then some (pyStripQuotes v) else conf x) rest := by
  have htl : ("Host " ++ v).toList = 'H' :: 'o' :: 's' :: 't' :: ' ' :: v.toList := by
    rw [toList_append]; rfl
  have hstripL : pyStrip (("Host " ++ v).toList) = ("Host " ++ v).toList := by
    apply pyStrip_eq_self
    · intro c hc
      rw [htl] at hc
      exact (Option.some.inj hc) ▸ (by decide)
    · intro c hc
      rw [htl] at hc
      have hsplit5 : ('H' :: 'o' :: 's' :: 't' :: ' ' :: v.toList)
          = ['H','o','s','t',' '] ++ v.toList := rfl
      rw [hsplit5, getLast?_append_right _ _ hne] at hc
      exact hl c hc
  have hstrip : pyStripS ("Host " ++ v) = "Host " ++ v := by
    unfold pyStripS
    rw [hstripL]
    exact mk_toList _
  have hstart : pyStartsWith ("Host " ++ v) "Host " = true := by
    unfold pyStartsWith
    rw [htl]
    simp [List.isPrefixOf]
  have hne2 : ¬ ("Host " ++ v) = "" := by
    intro h0
    have h1 := congrArg String.toList h0
    rw [htl] at h1
    cases h1
  have hhash : pyStartsWith ("Host " ++ v) "#" = false := by
    unfold pyStartsWith
    rw [htl]
    simp [List.isPrefixOf]
  have hdw : v.toList.dropWhile Char.isWhitespace = v.toList := dropWhile_ws_eq_self _ hh
  have hsplit : pySplitNone1 ("Host " ++ v) = ["Host", v] := by
    unfold pySplitNone1
    rw [htl]
    have e1 : List.dropWhile Char.isWhitespace ('H' :: 'o' :: 's' :: 't' :: ' ' :: v.toList)
        = 'H' :: 'o' :: 's' :: 't' :: ' ' :: v.toList := List.dropWhile_cons_of_neg (by decide)
    have e2 : List.takeWhile (fun c => !c.isWhitespace) ('H' :: 'o' :: 's' :: 't' :: ' ' :: v.toList)
        = ['H','o','s','t'] := by
      rw [List.takeWhile_cons_of_pos (by decide), List.takeWhile_cons_of_pos (by decide),
        List.takeWhile_cons_of_pos (by decide), List.takeWhile_cons_of_pos (by decide),
        List.takeWhile_cons_of_neg (by decide)]
    have e3 : List.dropWhile (fun c => !c.isWhitespace) ('H' :: 'o' :: 's' :: 't' :: ' ' :: v.toList)
        = ' ' :: v.toList := by
      rw [List.dropWhile_cons_of_pos (by decide), List.dropWhile_cons_of_pos (by decide),
        List.dropWhile_cons_of_pos (by decide), List.dropWhile_cons_of_pos (by decide),
        List.dropWhile_cons_of_neg (by decide)]
    have e4 : List.dropWhile Char.isWhitespace (' ' :: v.toList) = v.toList := by
      rw [List.dropWhile_cons_of_pos (by decide), hdw]
    simp only [e1, e2, e3, e4]
    rw [if_neg (by decide), if_neg hne, mk_toList]
  rw [show confLoop false conf (("Host " ++ v) :: rest)
      = if (false || pyStartsWith (pyStripS ("Host " ++ v)) "Host ") = false
          ∨ pyStripS ("Host " ++ v) = ""
          ∨ pyStartsWith (pyStripS ("Host " ++ v)) "#" = true
        then confLoop (false || pyStartsWith (pyStripS ("Host " ++ v)) "Host ") conf rest
        else match pySplitNone1 (pyStripS ("Host " ++ v)) with
          | [k, v2] => confLoop (false || pyStartsWith (pyStripS ("Host " ++ v)) "Host ")
              (fun x => if x = k then some (pyStripQuotes v2) else conf x) rest
          | _ => .error .valueError
    from rfl]
  rw [hstrip, hstart, hhash]
  simp only [Bool.false_or]
  rw [if_neg (by
    rintro (h0 | h0 | h0)
    · cases h0
    · exact hne2 h0
    · cases h0)]
  rw [hsplit]

/-- C6 counterexample: parsing the text `Host vagrant` followed by `User me`
stores the marker line itself: the resulting mapping contains the entry
`Host ↦ vagrant`, which is derived from the `Host <name>` line.  This
refutes the claim that the marker line is not stored and that the result
contains no entry derived from it. -/
theorem C6_counterexample :
    (parse_config "Host vagrant\nUser me").toOption.map (fun f => f "Host")
      = some (some "vagrant") := by
  rfl

/-- C6 (amended): no key/value pair is accumulated from any line before the
first line whose stripped content starts with the host-section keyword
followed by a space — every such preceding line is skipped unchanged;
however, the marker line itself IS stored: processing a line
`Host <name>` (with `<name>` non-empty and free of leading or trailing
whitespace) adds the entry `Host ↦ <name>` (quote-stripped) to the mapping. -/
theorem C6_amended :
    (∀ (pre post : List String) (conf : String → Option String),
      (∀ l ∈ pre, pyStartsWith (pyStripS l) "Host " = false) →
      confLoop false conf (pre ++ post) = confLoop false conf post)
    ∧ (∀ (v : String) (rest : List String) (conf : String → Option String),
      v.toList ≠ [] →
      v.toList.head?.all (fun c => !c.isWhitespace) = true →
      v.toList.getLast?.all (fun c => !c.isWhitespace) = true →
      confLoop false conf (("Host " ++ v) :: rest)
        = confLoop true (fun x => if x = "Host" then some (pyStripQuotes v) else conf x) rest) := by
  constructor
  · exact confLoop_skip_no_marker
  · intro v rest conf hne hh hl
    refine confLoop_marker_step v rest conf hne ?_ ?_
    · intro c hc
      rw [hc] at hh
      simpa using hh
    · intro c hc
      rw [hc] at hl
      simpa using hl

/-- Witness for C6 (amended): two pre-marker lines are skipped, and a
concrete marker line `Host vm1` is stored as `Host ↦ vm1`. -/
theorem C6_amended_witness :
    confLoop false (fun _ => none) (["# preamble", "Port 22"] ++ ["Host vm1"])
      = confLoop false (fun _ => none) ["Host vm1"]
    ∧ confLoop false (fun _ => none) (("Host " ++ "vm1") :: [])
      = confLoop true
          (fun x => if x = "Host" then some (pyStripQuotes "vm1") else (fun _ => none) x) [] :=
  ⟨C6_amended.1 ["# preamble", "Port 22"] ["Host vm1"] (fun _ => none) (by decide),
   C6_amended.2 "vm1" [] (fun _ => none) (by decide) (by decide) (by decide)⟩

theorem takeWhile_append_stop (p : Char → Bool) (xs ys : List Char) (y : Char)
    (hall : ∀ x ∈ xs, p x = true) (hy : p y = false) :
    List.takeWhile p (xs ++ y :: ys) = xs := by
  induction xs with
  | nil => simp [List.takeWhile_cons, hy]
  | cons x xs' ih =>
    rw [List.cons_append,
      List.takeWhile_cons_of_pos (hall x (List.mem_cons_self _ _)),
      ih (fun a ha => hall a (List.mem_cons_of_mem _ ha))]

theorem dropWhile_append_stop (p : Char → Bool) (xs ys : List Char) (y : Char)
    (hall : ∀ x ∈ xs, p x = true) (hy : p y = false) :
    List.dropWhile p (xs ++ y :: ys) = y :: ys := by
  induction xs with
  | nil => simp [List.dropWhile_cons, hy]
  | cons x xs' ih =>
    rw [List.cons_append,
      List.dropWhile_cons_of_pos (hall x (List.mem_cons_self _ _)),
      ih (fun a ha => hall a (List.mem_cons_of_mem _ ha))]

theorem takeWhile_eq_self_of_all (p : Char → Bool) (l : List Char)
    (h : ∀ x ∈ l, p x = true) : List.takeWhile p l = l := by
  induction l with
  | nil => rfl
  | cons x xs ih =>
    rw [List.takeWhile_cons_of_pos (h x (List.mem_cons_self _ _)),
      ih (fun a ha => h a (List.mem_cons_of_mem _ ha))]

theorem dropWhile_append_split (p : Char → Bool) (l₁ l₂ : List Char) :
    List.dropWhile p (l₁ ++ l₂)
      = if List.dropWhile p l₁ = [] then List.dropWhile p l₂
        else List.dropWhile p l₁ ++ l₂ := by
  induction l₁ with
  | nil => simp
  | cons x xs ih =>
    cases hx : p x with
    | true =>
      rw [List.cons_append, List.dropWhile_cons_of_pos hx, ih,
        List.dropWhile_cons_of_pos hx]
    | false =>
      rw [List.cons_append, List.dropWhile_cons_of_neg (by simp [hx]),
        List.dropWhile_cons_of_neg (by simp [hx])]
      simp

theorem pySplitNone1_token_rest (a b : String)
    (hane : a.toList ≠ [])
    (haall : ∀ c ∈ a.toList, ¬ c.isWhitespace)
    (hbne : b.toList ≠ [])
    (hbh : b.toList.head?.all (fun c => !c.isWhitespace) = true) :
    pySplitNone1 (a ++ " " ++ b) = [a, b] := by
  have hbh2 : ∀ c, b.toList.head? = some c → ¬ c.isWhitespace := by
    intro c hc
    rw [hc] at hbh
    simpa using hbh
  have haall2 : ∀ c ∈ a.toList, (fun c => !c.isWhitespace) c = true := by
    intro c hc
    simpa using haall c hc
  have htl : (a ++ " " ++ b).toList = a.toList ++ ' ' :: b.toList := by
    rw [toList_append, toList_append]
    simp
  unfold pySplitNone1
  rw [htl]
  have e1 : List.dropWhile Char.isWhitespace (a.toList ++ ' ' :: b.toList)
      = a.toList ++ ' ' :: b.toList := by
    apply dropWhile_ws_eq_self
    intro c hc
    cases ha : a.toList with
    | nil => exact absurd ha hane
    | cons a0 as =>
      rw [ha] at hc
      rw [List.cons_append] at hc
      exact (Option.some.inj hc) ▸ haall a0 (ha ▸ List.mem_cons_self a0 as)
  have e2 : List.takeWhile (fun c => !c.isWhitespace) (a.toList ++ ' ' :: b.toList)
      = a.toList := takeWhile_append_stop _ _ _ _ haall2 (by decide)
  have e3 : List.dropWhile (fun c => !c.isWhitespace) (a.toList ++ ' ' :: b.toList)
      = ' ' :: b.toList := dropWhile_append_stop _ _ _ _ haall2 (by decide)
  have e4 : List.dropWhile Char.isWhitespace (' ' :: b.toList) = b.toList := by
    rw [List.dropWhile_cons_of_pos (by decide), dropWhile_ws_eq_self _ hbh2]
  simp only [e1, e2, e3, e4]
  rw [if_neg hane, if_neg hbne, mk_toList, mk_toList]

theorem pyStripQuotes_drop_left (s : String) :
    pyStripQuotes ("\"" ++ s) = pyStripQuotes s := by
  unfold pyStripQuotes
  rw [toList_append]
  rw [show ("\"" : String).toList ++ s.toList = '"' :: s.toList from rfl]
  rw [List.dropWhile_cons_of_pos (by decide)]

theorem pyStripQuotes_drop_right (s : String) :
    pyStripQuotes (s ++ "\"") = pyStripQuotes s := by
  unfold pyStripQuotes
  rw [toList_append]
  rw [show s.toList ++ ("\"" : String).toList = s.toList ++ ['"'] from rfl]
  rw [dropWhile_append_split]
  by_cases h : List.dropWhile (fun c => c = '"') s.toList = []
  · rw [if_pos h, h]
    rfl
  · rw [if_neg h, List.reverse_append]
    rw [show (['"'] : List Char).reverse = ['"'] from rfl]
    rw [show ('"' :: []) ++ (List.dropWhile (fun c => c = '"') s.toList).reverse
        = '"' :: (List.dropWhile (fun c => c = '"') s.toList).reverse from rfl]
    rw [List.dropWhile_cons_of_pos (by decide)]

/-- C7 counterexample: the config line `    Key "abc` carries a value with a
double quote on the left side only; the claim says no quote is removed in
that case, but the code strips it: the stored value is `abc`, not `"abc`. -/
theorem C7_counterexample :
    (parse_config "Host v\n    Key \"abc").toOption.map (fun f => f "Key")
      = some (some "abc")
    ∧ ("abc" : String) ≠ "\"abc" := by
  refine ⟨rfl, by decide⟩

/-- C7 (amended): an accumulated config line is split into exactly two parts
at the first run of whitespace (key, rest-of-line-as-value), and ALL leading
and trailing double-quote characters are removed from the value, regardless
of pairing: removing a quote from either end alone leaves the result
unchanged only in the sense that it is stripped anyway, and nested quotes
are all removed.  The example `    IdentityFile "/a/b/key"` inside a `Host`
block still yields `IdentityFile ↦ /a/b/key`. -/
theorem C7_amended :
    (∀ a b : String,
      a.toList ≠ [] → (∀ c ∈ a.toList, ¬ c.isWhitespace) →
      b.toList ≠ [] → b.toList.head?.all (fun c => !c.isWhitespace) = true →
      pySplitNone1 (a ++ " " ++ b) = [a, b])
    ∧ (∀ s : String, pyStripQuotes ("\"" ++ s) = pyStripQuotes s
        ∧ pyStripQuotes (s ++ "\"") = pyStripQuotes s)
    ∧ (parse_config "Host v\n    IdentityFile \"/a/b/key\"").toOption.map
        (fun f => f "IdentityFile") = some (some "/a/b/key")
    ∧ (parse_config "Host v\n    Key \"\"abc\"\"").toOption.map
        (fun f => f "Key") = some (some "abc") := by
  refine ⟨pySplitNone1_token_rest,
    fun s => ⟨pyStripQuotes_drop_left s, pyStripQuotes_drop_right s⟩, rfl, rfl⟩

/-- Witness for C7 (amended) at a concrete key/value line. -/
theorem C7_amended_witness :
    pySplitNone1 ("IdentityFile" ++ " " ++ "\"/a/b/key\"")
      = ["IdentityFile", "\"/a/b/key\""] :=
  C7_amended.1 "IdentityFile" "\"/a/b/key\"" (by decide) (by decide) (by decide)
    (by decide)

/-- C8 counterexample: the malformed config line `BadLine` (a single token
with no value) after the `Host` marker makes `parse_config` fail with a
`ValueError` coming from the two-element tuple unpacking, not with a
`ParseError` naming the offending line — no `ParseError` is ever raised by
the code. -/
theorem C8_counterexample :
    parse_config "Host v\nBadLine" = .error .valueError
    ∧ PyErr.valueError ≠ PyErr.parseError "BadLine" := by
  refine ⟨rfl, by decide⟩

/-- C8 (amended): a non-blank, non-comment line after the host-section
marker that consists of a single token with no whitespace-separated second
token is never silently skipped: it makes `parse_config` fail — but with
the unpacking `ValueError`, not with a `ParseError` naming the line. -/
theorem C8_amended (line : String)
    (h1 : line.toList ≠ [])
    (h2 : ∀ c ∈ line.toList, ¬ c.isWhitespace)
    (h3 : pyStartsWith line "#" = false) :
    parse_config ("Host v\n" ++ line) = .error .valueError := by
  have hnl : '\n' ∉ line.toList := fun hm => h2 '\n' hm (by decide)
  have htl : ("Host v\n" ++ line).toList
      = ['H','o','s','t',' ','v'] ++ '\n' :: line.toList := by
    rw [toList_append]; rfl
  have hlines : pySplitlines ("Host v\n" ++ line) = ["Host v", line] := by
    unfold pySplitlines
    rw [htl, splitAll_append _ _ _ (by decide), splitAll_of_not_mem _ _ hnl]
    dsimp only
    rw [show ([['H','o','s','t',' ','v'], line.toList] : List (List Char)).getLast?
        = some line.toList from rfl]
    rw [if_neg (fun h0 => h1 (Option.some.inj h0))]
    dsimp only [List.map]
    rw [mk_toList]
  have hstrip : pyStripS line = line := by
    unfold pyStripS
    rw [pyStrip_eq_self_of_all _ h2, mk_toList]
  have hlne : ¬ line = "" := by
    intro h0
    exact h1 (by rw [h0]; rfl)
  have hsplit1 : pySplitNone1 line = [line] := by
    unfold pySplitNone1
    have e1 : List.dropWhile Char.isWhitespace line.toList = line.toList := by
      apply dropWhile_ws_eq_self
      intro c hc
      exact h2 c (mem_of_head?_some hc)
    have e2 : List.takeWhile (fun c => !c.isWhitespace) line.toList = line.toList :=
      takeWhile_eq_self_of_all _ _ (fun x hx => by simpa using h2 x hx)
    have e3 : List.dropWhile (fun c => !c.isWhitespace) line.toList = [] :=
      List.dropWhile_eq_nil_iff.mpr (fun x hx => by simpa using h2 x hx)
    simp only [e1, e2, e3]
    rw [if_neg h1, if_pos (by rw [List.dropWhile_nil]), mk_toList]
  unfold parse_config
  rw [hlines]
  rw [show confLoop false (fun _ => none) ["Host v", line]
      = confLoop true (fun x => if x = "Host" then some "v" else none) [line]
    from rfl]
  rw [show confLoop true (fun x => if x = "Host" then some "v" else none) [line]
      = if (true || pyStartsWith (pyStripS line) "Host ") = false
          ∨ pyStripS line = "" ∨ pyStartsWith (pyStripS line) "#" = true
        then confLoop (true || pyStartsWith (pyStripS line) "Host ")
            (fun x => if x = "Host" then some "v" else none) []
        else match pySplitNone1 (pyStripS line) with
          | [k, v2] => confLoop (true || pyStartsWith (pyStripS line) "Host ")
              (fun x => if x = k then some (pyStripQuotes v2)
                else if x = "Host" then some "v" else none) []
          | _ => .error .valueError
    from rfl]
  rw [hstrip, h3]
  simp only [Bool.true_or]
  rw [if_neg (by
    rintro (h0 | h0 | h0)
    · cases h0
    · exact hlne h0
    · cases h0)]
  rw [hsplit1]

/-- Witness for C8 (amended) at the concrete malformed line `Oops`. -/
theorem C8_amended_witness :
    parse_config ("Host v\n" ++ "Oops") = .error .valueError :=
  C8_amended "Oops" (by decide) (by decide) (by decide)

/-! ### Embedding of `Vagrant._parse_status` -/

/-- A decoded machine-readable quadruple `(timestamp, target, kind, data)`. -/
structure Quad where
  timestamp : String
  target : String
  kind : String
  data : String
deriving DecidableEq, Repr

/-- The `Status` namedtuple: `Status(name, state, provider)`; `state` and
`provider` come from `info.get(...)` and may be absent. -/
structure Status where
  name : String
  state : Option String
  provider : Option String
deriving DecidableEq, Repr

/-- Model of `itertools.groupby(l, f)`: consecutive runs of elements with
equal keys, each tagged with its key. -/
def pyGroupby {α β : Type} [DecidableEq β] (f : α → β) : List α → List (β × List α)
  | [] => []
  | x :: rest =>
    match pyGroupby f rest with
    | [] => [(f x, [x])]
    | (k, g) :: gs =>
      if f x = k then (f x, x :: g) :: gs else (f x, [x]) :: (k, g) :: gs

/-- A Python dict built by successive assignments `d[k] = v` over a pair
list (as in the comprehension `{kind: data for ...}`), viewed as a lookup
function; later assignments overwrite earlier ones. -/
def dictInsertAll (ps : List (String × String)) : String → Option String :=
  ps.foldl (fun d kv => fun k => if k = kv.1 then some kv.2 else d k) (fun _ => none)

/-- Embedding of the grouping and reduction in `Vagrant._parse_status`:
group the decoded quadruples by target with `itertools.groupby`, reduce each
group to a kind-to-data dict, and emit one `Status` per group from the
`state` and `provider-name` keys. -/
def parse_status_quads (qs : List Quad) : List Status :=
  (pyGroupby Quad.target qs).map (fun tg =>
    let info := dictInsertAll (tg.2.map (fun q => (q.kind, q.data)))
    { name := tg.1, state := info "state", provider := info "provider-name" })

/-- Specification-side reading of the dict reduction: the data of the LAST
occurrence of a kind wins; a missing kind yields `none`. -/
def lastVal (ps : List (String × String)) (k : String) : Option String :=
  ((ps.filter (fun p => p.1 = k)).getLast?).map Prod.snd

/-- Collapse consecutive runs of equal elements to one element each. -/
def dedupConsecutive {α : Type} [DecidableEq α] : List α → List α
  | [] => []
  | [x] => [x]
  | x :: y :: rest =>
    if x = y then dedupConsecutive (y :: rest)
    else x :: dedupConsecutive (y :: rest)

/-- The distinct values of a list in order of first appearance. -/
def firstSeen {α : Type} [DecidableEq α] : List α → List α
  | [] => []
  | x :: rest => x :: firstSeen (rest.filter (fun a => a ≠ x))
termination_by l => l.length
decreasing_by
  simp only [List.length_cons]
  exact Nat.lt_succ_of_le (List.length_filter_le _ _)

theorem dict_lastVal (ps : List (String × String)) (k : String) :
    dictInsertAll ps k = lastVal ps k := by
  induction ps using List.reverseRecOn with
  | nil => rfl
  | append_singleton as a ih =>
    unfold dictInsertAll at ih ⊢
    rw [List.foldl_append, List.foldl_cons, List.foldl_nil]
    unfold lastVal
    rw [List.filter_append]
    by_cases ha : a.1 = k
    · have hfa : List.filter (fun p => decide (p.1 = k)) [a] = [a] := by
        simp [ha]
      rw [hfa, List.getLast?_concat]
      simp [ha.symm]
    · have hfa : List.filter (fun p => decide (p.1 = k)) [a] = [] := by
        simp [ha]
      rw [hfa, List.append_nil]
      have hk : ¬ k = a.1 := fun h0 => ha h0.symm
      rw [if_neg hk]
      exact ih

theorem pyGroupby_head {α β : Type} [DecidableEq β] (f : α → β) (y : α) (l : List α) :
    ∃ g gs, pyGroupby f (y :: l) = (f y, g) :: gs := by
  cases hg : pyGroupby f l with
  | nil => exact ⟨[y], [], by simp [pyGroupby, hg]⟩
  | cons kg gs' =>
    obtain ⟨k, g⟩ := kg
    by_cases hk : f y = k
    · exact ⟨y :: g, gs', by simp [pyGroupby, hg, hk]⟩
    · exact ⟨[y], (k, g) :: gs', by simp [pyGroupby, hg, hk]⟩

theorem pyGroupby_keys {α β : Type} [DecidableEq β] (f : α → β) (l : List α) :
    (pyGroupby f l).map Prod.fst = dedupConsecutive (l.map f) := by
  induction l with
  | nil => rfl
  | cons x rest ih =>
    cases rest with
    | nil => rfl
    | cons y rest' =>
      obtain ⟨g, gs, hg⟩ := pyGroupby_head f y rest'
      have hunfold : pyGroupby f (x :: y :: rest')
          = match pyGroupby f (y :: rest') with
            | [] => [(f x, [x])]
            | (k, g) :: gs =>
              if f x = k then (f x, x :: g) :: gs
              else (f x, [x]) :: (k, g) :: gs := rfl
      rw [hunfold, hg]
      dsimp only
      have hd : dedupConsecutive (f x :: f y :: rest'.map f)
          = if f x = f y then dedupConsecutive (f y :: rest'.map f)
            else f x :: dedupConsecutive (f y :: rest'.map f) := rfl
      rw [List.map_cons, List.map_cons, hd]
      have ih' := ih
      rw [hg, List.map_cons, List.map_cons] at ih'
      dsimp only at ih'
      by_cases hxy : f x = f y
      · rw [if_pos hxy, if_pos hxy, List.map_cons, ← ih']
        dsimp only
        rw [hxy]
      · rw [if_neg hxy, if_neg hxy, List.map_cons, List.map_cons, ← ih']

theorem mem_dedupConsecutive {α : Type} [DecidableEq α] (a : α) (l : List α) :
    a ∈ dedupConsecutive l ↔ a ∈ l := by
  induction l with
  | nil => simp [dedupConsecutive]
  | cons x rest ih =>
    cases rest with
    | nil => simp [dedupConsecutive]
    | cons y rest' =>
      rw [show dedupConsecutive (x :: y :: rest')
          = if x = y then dedupConsecutive (y :: rest')
            else x :: dedupConsecutive (y :: rest') from rfl]
      by_cases hxy : x = y
      · rw [if_pos hxy, ih]
        subst hxy
        simp [List.mem_cons]
      · rw [if_neg hxy]
        simp [List.mem_cons, ih]

theorem dedupConsecutive_eq_firstSeen {α : Type} [DecidableEq α] (l : List α)
    (h : (dedupConsecutive l).Nodup) : dedupConsecutive l = firstSeen l := by
  induction l with
  | nil => simp [dedupConsecutive, firstSeen]
  | cons x rest ih =>
    cases rest with
    | nil => simp [dedupConsecutive, firstSeen]
    | cons y rest' =>
      rw [show dedupConsecutive (x :: y :: rest')
          = if x = y then dedupConsecutive (y :: rest')
            else x :: dedupConsecutive (y :: rest') from rfl] at h ⊢
      by_cases hxy : x = y
      · rw [if_pos hxy] at h ⊢
        rw [ih h]
        subst hxy
        rw [show firstSeen (x :: x :: rest')
            = x :: firstSeen ((x :: rest').filter (fun a => a ≠ x)) from by
          simp [firstSeen]]
        rw [show firstSeen (x :: rest')
            = x :: firstSeen (rest'.filter (fun a => a ≠ x)) from by
          simp [firstSeen]]
        rw [List.filter_cons_of_neg (by simp)]
      · rw [if_neg hxy] at h ⊢
        have hnodup := List.nodup_cons.mp h
        have hx_notmem : x ∉ y :: rest' :=
          fun hm => hnodup.1 ((mem_dedupConsecutive x (y :: rest')).mpr hm)
        rw [ih hnodup.2]
        rw [show firstSeen (x :: y :: rest')
            = x :: firstSeen ((y :: rest').filter (fun a => a ≠ x)) from by
          simp [firstSeen]]
        have hfilter : (y :: rest').filter (fun a => a ≠ x) = y :: rest' := by
          rw [List.filter_eq_self]
          intro a ha
          simp only [ne_eq, decide_eq_true_eq]
          intro h0
          exact hx_notmem (h0 ▸ ha)
        rw [hfilter]

/-- C3: for every decoded stream in which quadruples sharing a target are
contiguous (formalised as: collapsing consecutive target runs leaves no
duplicate target), `parse_status_quads` yields exactly one `Status` per
contiguous target group, named in first-seen order of the targets, and
within each group the kind-to-data reduction lets the LAST occurrence of a
repeated kind win while a group missing `state` or `provider-name` yields
`none` for that field. -/
theorem C3_status_grouping (qs : List Quad)
    (h : (dedupConsecutive (qs.map Quad.target)).Nodup) :
    (parse_status_quads qs).map Status.name = firstSeen (qs.map Quad.target)
    ∧ parse_status_quads qs = (pyGroupby Quad.target qs).map (fun tg =>
        { name := tg.1,
          state := lastVal (tg.2.map (fun q => (q.kind, q.data))) "state",
          provider := lastVal (tg.2.map (fun q => (q.kind, q.data))) "provider-name" }) := by
  have hspec : parse_status_quads qs = (pyGroupby Quad.target qs).map (fun tg =>
      { name := tg.1,
        state := lastVal (tg.2.map (fun q => (q.kind, q.data))) "state",
        provider := lastVal (tg.2.map (fun q => (q.kind, q.data))) "provider-name" }) := by
    unfold parse_status_quads
    apply List.map_congr_left
    intro tg _
    simp only [dict_lastVal]
  refine ⟨?_, hspec⟩
  rw [hspec, List.map_map]
  have hkeys := pyGroupby_keys Quad.target qs
  rw [dedupConsecutive_eq_firstSeen _ h] at hkeys
  exact hkeys

/-- Witness for C3 at the two-target example stream from the spec. -/
theorem C3_witness :
    (dedupConsecutive (([⟨"1","web","state","running"⟩,
        ⟨"1","web","provider-name","virtualbox"⟩,
        ⟨"1","db","state","not_created"⟩,
        ⟨"1","db","provider-name","virtualbox"⟩] : List Quad).map Quad.target)).Nodup
    ∧ (parse_status_quads [⟨"1","web","state","running"⟩,
        ⟨"1","web","provider-name","virtualbox"⟩,
        ⟨"1","db","state","not_created"⟩,
        ⟨"1","db","provider-name","virtualbox"⟩]).map Status.name
      = firstSeen (([⟨"1","web","state","running"⟩,
        ⟨"1","web","provider-name","virtualbox"⟩,
        ⟨"1","db","state","not_created"⟩,
        ⟨"1","db","provider-name","virtualbox"⟩] : List Quad).map Quad.target) :=
  ⟨by decide, (C3_status_grouping _ (by decide)).1⟩

/-! ### Embedding of `Vagrant._parse_box_list` -/

/-- The `Box` namedtuple: `Box(name, provider, version)`. -/
structure Box where
  name : String
  provider : Option String
  version : Option String
deriving DecidableEq, Repr

/-- The accumulation loop of `Vagrant._parse_box_list`: scan the quadruples
keeping `name`/`provider`/`version` accumulators; on `box-name` finalize the
previous record if `name is not None` and reset provider/version; at the end
finalize a pending record. -/
def boxLoop (name provider version : Option String) : List Quad → List Box
  | [] =>
    match name with
    | some n => [⟨n, provider, version⟩]
    | none => []
  | q :: rest =>
    if q.kind = "box-name" then
      (match name with
       | some n => [⟨n, provider, version⟩]
       | none => []) ++ boxLoop (some q.data) none none rest
    else if q.kind = "box-provider" then
      boxLoop name (some q.data) version rest
    else if q.kind = "box-version" then
      boxLoop name provider (some q.data) rest
    else
      boxLoop name provider version rest

/-- Embedding of `Vagrant._parse_box_list` on a decoded quadruple stream. -/
def parse_box_list (qs : List Quad) : List Box :=
  boxLoop none none none qs

/-- Specification-side reading: the data most recently set by a quadruple of
kind `k` in the stream, or the default when no such quadruple occurs. -/
def lastData (k : String) (dflt : Option String) (qs : List Quad) : Option String :=
  qs.foldl (fun acc q => if q.kind = k then some q.data else acc) dflt

/-- Specification-side box list, following the spec text: each `box-name`
quadruple starts one record whose provider/version are the values most
recently set before the next `box-name` quadruple (or the end of the
stream). -/
def specBoxList : List Quad → List Box
  | [] => []
  | q :: rest =>
    if q.kind = "box-name" then
      ⟨q.data,
       lastData "box-provider" none (rest.takeWhile (fun r => r.kind ≠ "box-name")),
       lastData "box-version" none (rest.takeWhile (fun r => r.kind ≠ "box-name"))⟩
        :: specBoxList (rest.dropWhile (fun r => r.kind ≠ "box-name"))
    else specBoxList rest
termination_by qs => qs.length
decreasing_by
  · simp only [List.length_cons]
    exact Nat.lt_succ_of_le (List.IsSuffix.length_le (List.dropWhile_suffix _))
  · simp only [List.length_cons]
    exact Nat.lt_succ_self _

theorem lastData_cons (k : String) (dflt : Option String) (q : Quad) (l : List Quad) :
    lastData k dflt (q :: l)
      = lastData k (if q.kind = k then some q.data else dflt) l := rfl

theorem boxLoop_some (n : String) (p v : Option String) (qs : List Quad) :
    boxLoop (some n) p v qs
      = ⟨n, lastData "box-provider" p (qs.takeWhile (fun r => r.kind ≠ "box-name")),
           lastData "box-version" v (qs.takeWhile (fun r => r.kind ≠ "box-name"))⟩
        :: specBoxList (qs.dropWhile (fun r => r.kind ≠ "box-name")) := by
  induction qs generalizing n p v with
  | nil => simp [boxLoop, lastData, specBoxList]
  | cons q rest ih =>
    by_cases hq : q.kind = "box-name"
    · have hpred : ¬ ((fun r : Quad => decide (r.kind ≠ "box-name")) q = true) := by
        simp [hq]
      rw [List.takeWhile_cons_of_neg
            (p := fun r : Quad => decide (r.kind ≠ "box-name")) (l := rest) hpred,
          List.dropWhile_cons_of_neg
            (p := fun r : Quad => decide (r.kind ≠ "box-name")) (l := rest) hpred]
      simp only [boxLoop, if_pos hq, List.singleton_append]
      rw [ih]
      rw [show specBoxList (q :: rest)
          = ⟨q.data,
             lastData "box-provider" none (rest.takeWhile (fun r => r.kind ≠ "box-name")),
             lastData "box-version" none (rest.takeWhile (fun r => r.kind ≠ "box-name"))⟩
            :: specBoxList (rest.dropWhile (fun r => r.kind ≠ "box-name")) from by
        rw [specBoxList]
        rw [if_pos hq]]
      simp [lastData]
    · have hpred : (fun r : Quad => decide (r.kind ≠ "box-name")) q = true := by
        simp [hq]
      rw [List.takeWhile_cons_of_pos
            (p := fun r : Quad => decide (r.kind ≠ "box-name")) (l := rest) hpred,
          List.dropWhile_cons_of_pos
            (p := fun r : Quad => decide (r.kind ≠ "box-name")) (l := rest) hpred]
      rw [lastData_cons, lastData_cons]
      by_cases hp : q.kind = "box-provider"
      · rw [if_pos hp, if_neg (by rw [hp]; decide)]
        simp only [boxLoop, if_neg hq, if_pos hp]
        exact ih n (some q.data) v
      · by_cases hv : q.kind = "box-version"
        · rw [if_neg hp, if_pos hv]
          simp only [boxLoop, if_neg hq, if_neg hp, if_pos hv]
          exact ih n p (some q.data)
        · rw [if_neg hp, if_neg hv]
          simp only [boxLoop, if_neg hq, if_neg hp, if_neg hv]
          exact ih n p v

theorem boxLoop_none (p v : Option String) (qs : List Quad) :
    boxLoop none p v qs = specBoxList qs := by
  induction qs generalizing p v with
  | nil => simp [boxLoop, specBoxList]
  | cons q rest ih =>
    by_cases hq : q.kind = "box-name"
    · simp only [boxLoop, if_pos hq, List.nil_append]
      rw [boxLoop_some]
      rw [show specBoxList (q :: rest)
          = ⟨q.data,
             lastData "box-provider" none (rest.takeWhile (fun r => r.kind ≠ "box-name")),
             lastData "box-version" none (rest.takeWhile (fun r => r.kind ≠ "box-name"))⟩
            :: specBoxList (rest.dropWhile (fun r => r.kind ≠ "box-name")) from by
        rw [specBoxList]
        rw [if_pos hq]]
    · have hspec : specBoxList (q :: rest) = specBoxList rest := by
        rw [specBoxList]
        rw [if_neg hq]
      rw [hspec]
      by_cases hp : q.kind = "box-provider"
      · simp only [boxLoop, if_neg hq, if_pos hp]
        exact ih (some q.data) v
      · by_cases hv : q.kind = "box-version"
        · simp only [boxLoop, if_neg hq, if_neg hp, if_pos hv]
          exact ih p (some q.data)
        · simp only [boxLoop, if_neg hq, if_neg hp, if_neg hv]
          exact ih p v

theorem boxLoop_length (nm p v : Option String) (qs : List Quad) :
    (boxLoop nm p v qs).length
      = (qs.filter (fun q => q.kind = "box-name")).length
        + (match nm with | some _ => 1 | none => 0) := by
  induction qs generalizing nm p v with
  | nil => cases nm <;> simp [boxLoop]
  | cons q rest ih =>
    by_cases hq : q.kind = "box-name"
    · simp only [boxLoop, if_pos hq]
      rw [List.length_append, ih]
      rw [List.filter_cons_of_pos (by simp [hq]), List.length_cons]
      cases nm with
      | none => simp
      | some x => simp; omega
    · have hfilter : (q :: rest).filter (fun q => q.kind = "box-name")
          = rest.filter (fun q => q.kind = "box-name") :=
        List.filter_cons_of_neg (by simp [hq])
      rw [hfilter]
      by_cases hp : q.kind = "box-provider"
      · simp only [boxLoop, if_neg hq, if_pos hp]
        exact ih nm (some q.data) v
      · by_cases hv : q.kind = "box-version"
        · simp only [boxLoop, if_neg hq, if_neg hp, if_pos hv]
          exact ih nm p (some q.data)
        · simp only [boxLoop, if_neg hq, if_neg hp, if_neg hv]
          exact ih nm p v

/-- C4: `parse_box_list` coincides with the specification-side description:
it returns exactly one `Box` per `box-name` quadruple (so N records for N
`box-name` markers, the previous record being finalized exactly when the
name accumulator is set, i.e. not `None`, and a pending record at end of
stream being finalized), and each record's provider and version are the
values most recently set by `box-provider`/`box-version` quadruples after
its `box-name` and before the next `box-name` (or end of stream), with
provider and version reset to absent at each `box-name`.  The third conjunct
checks the spec's concrete box-listing scenario. -/
theorem C4_box_list (qs : List Quad) :
    parse_box_list qs = specBoxList qs
    ∧ (parse_box_list qs).length
        = (qs.filter (fun q => q.kind = "box-name")).length
    ∧ parse_box_list
        [⟨"1424141572","","box-name","precise64"⟩,
         ⟨"1424141572","","box-provider","virtualbox"⟩,
         ⟨"1424141572","","box-version","0"⟩]
      = [⟨"precise64", some "virtualbox", some "0"⟩] := by
  refine ⟨boxLoop_none none none qs, ?_, rfl⟩
  have h := boxLoop_length none none none qs
  simpa using h

/-! ### Embedding of `Vagrant._parse_plugin_list` -/

/-- The escaped-comma token used by the external tool. -/
def ENCODED_COMMA : String := "%!(VAGRANT_COMMA)"

/-- The `Plugin` namedtuple: `Plugin(name, version, system)`. -/
structure Plugin where
  name : String
  version : Option String
  system : Bool
deriving DecidableEq, Repr

/-- Model of Python `str.lower()`. -/
def pyLower (s : String) : String :=
  ⟨s.toList.map Char.toLower⟩

/-- Model of Python `str.split(sep)` for a multi-character separator, with
explicit fuel (one unit per consumed character; `sep` is assumed non-empty):
split at every non-overlapping occurrence of `sep`, scanning left to
right. -/
def splitTokenFuel (sep : List Char) : Nat → List Char → List (List Char)
  | _, [] => [[]]
  | 0, cs => [cs]
  | n + 1, c :: rest =>
    if sep.isPrefixOf (c :: rest) then
      [] :: splitTokenFuel sep n (rest.drop (sep.length - 1))
    else
      match splitTokenFuel sep n rest with
      | [] => [[c]]
      | f :: fs => (c :: f) :: fs

/-- Model of Python `data.split(ENCODED_COMMA)`. -/
def pySplitOnEC (s : String) : List String :=
  (splitTokenFuel ENCODED_COMMA.toList s.toList.length s.toList).map
    (fun cs => (⟨cs⟩ : String))

/-- The version-field sub-parse of `Vagrant._parse_plugin_list`: if the
escaped-comma token occurs in the data (equivalently, the split has more
than one part) then `version, etc = data.split(ENCODED_COMMA)` — an
unpacking that raises `ValueError` unless the split has exactly two parts —
and `system = (etc.strip().lower() == 'system')`; otherwise the whole field
is the version and `system` is false. -/
def pluginVersionParse (data : String) : Except PyErr (String × Bool) :=
  match pySplitOnEC data with
  | [_] => .ok (data, false)
  | [version, etc] => .ok (version, decide (pyLower (pyStripS etc) = "system"))
  | _ => .error .valueError

/-- The accumulation loop of `Vagrant._parse_plugin_list`. -/
def pluginLoop (name : Option String) (version : Option String) (system : Bool) :
    List Quad → Except PyErr (List Plugin)
  | [] =>
    .ok (match name with
         | some n => [⟨n, version, system⟩]
         | none => [])
  | q :: rest =>
    if q.kind = "plugin-name" then
      match name with
      | some n =>
        (pluginLoop (some q.data) none false rest).map
          (fun ps => ⟨n, version, system⟩ :: ps)
      | none => pluginLoop (some q.data) none false rest
    else if q.kind = "plugin-version" then
      match pluginVersionParse q.data with
      | .ok vs => pluginLoop name (some vs.1) vs.2 rest
      | .error e => .error e
    else
      pluginLoop name version system rest

/-- Embedding of `Vagrant._parse_plugin_list` on a decoded quadruple
stream. -/
def parse_plugin_list (qs : List Quad) : Except PyErr (List Plugin) :=
  pluginLoop none none false qs

/-- C5 counterexample: the plugin-version data field
`1.1.3 %!(VAGRANT_COMMA)system` has whitespace to the left of the token;
the code takes the left side of the split verbatim (`1.1.3 ` with a
trailing space), not trimmed as the claim states. -/
theorem C5_counterexample :
    parse_plugin_list [⟨"t","","plugin-name","p"⟩,
      ⟨"t","p","plugin-version","1.1.3 %!(VAGRANT_COMMA)system"⟩]
      = .ok [⟨"p", some "1.1.3 ", true⟩]
    ∧ ("1.1.3 " : String) ≠ "1.1.3" := by
  refine ⟨rfl, by decide⟩

/-- C5 (amended): if the plugin-version data field contains the
escaped-comma token (split in exactly two parts), the left side is taken
VERBATIM (not trimmed) as the version string, and `system` is true exactly
when the right side, after trimming and lowercasing, equals `system`; if
the token is absent the whole field is the version and `system` is false.
In particular `1.1.3<TOKEN> system` parses to version `1.1.3`, system true,
and `0.0.16` parses to version `0.0.16`, system false. -/
theorem C5_amended (data l r : String) :
    (pySplitOnEC data = [l, r] →
      pluginVersionParse data = .ok (l, decide (pyLower (pyStripS r) = "system")))
    ∧ (pySplitOnEC data = [data] →
      pluginVersionParse data = .ok (data, false))
    ∧ parse_plugin_list [⟨"t","","plugin-name","vagrant-share"⟩,
        ⟨"t","vagrant-share","plugin-version","1.1.3%!(VAGRANT_COMMA) system"⟩]
      = .ok [⟨"vagrant-share", some "1.1.3", true⟩]
    ∧ parse_plugin_list [⟨"t","","plugin-name","sahara"⟩,
        ⟨"t","sahara","plugin-version","0.0.16"⟩]
      = .ok [⟨"sahara", some "0.0.16", false⟩] := by
  refine ⟨?_, ?_, rfl, rfl⟩
  · intro h
    unfold pluginVersionParse
    rw [h]
  · intro h
    unfold pluginVersionParse
    rw [h]

/-- Witness for C5 (amended), discharging both hypotheses at concrete
fields. -/
theorem C5_amended_witness :
    (pySplitOnEC "a%!(VAGRANT_COMMA) b" = ["a", " b"]
      ∧ pluginVersionParse "a%!(VAGRANT_COMMA) b"
          = .ok ("a", decide (pyLower (pyStripS " b") = "system")))
    ∧ (pySplitOnEC "0.0.16" = ["0.0.16"]
      ∧ pluginVersionParse "0.0.16" = .ok ("0.0.16", false)) :=
  ⟨⟨rfl, (C5_amended "a%!(VAGRANT_COMMA) b" "a" " b").1 rfl⟩,
   ⟨rfl, (C5_amended "0.0.16" "" "").2.1 rfl⟩⟩

theorem pluginVersionParse_error_eq (d : String) (e : PyErr)
    (h : pluginVersionParse d = .error e) : e = .valueError := by
  unfold pluginVersionParse at h
  rcases hs : pySplitOnEC d with _ | ⟨a, _ | ⟨b, _ | ⟨c, t⟩⟩⟩ <;> rw [hs] at h
  · exact (Except.error.inj h).symm
  · cases h
  · cases h
  · exact (Except.error.inj h).symm

theorem pluginVersionParse_bad (d : String)
    (h : 3 ≤ (pySplitOnEC d).length) :
    pluginVersionParse d = .error .valueError := by
  unfold pluginVersionParse
  rcases hs : pySplitOnEC d with _ | ⟨a, _ | ⟨b, _ | ⟨c, t⟩⟩⟩
  all_goals try rfl
  all_goals rw [hs] at h
  all_goals simp at h

theorem pluginLoop_error_of_bad (qs : List Quad) :
    ∀ (nm ver : Option String) (sys : Bool),
    (∃ q ∈ qs, q.kind = "plugin-version" ∧ 3 ≤ (pySplitOnEC q.data).length) →
    pluginLoop nm ver sys qs = .error .valueError := by
  induction qs with
  | nil =>
    intro _ _ _ hbad
    rcases hbad with ⟨q, hq, _⟩
    cases hq
  | cons x rest ih =>
    intro nm ver sys hbad
    rcases hbad with ⟨q, hq, hkind, hlen⟩
    rcases List.mem_cons.mp hq with rfl | hqr
    · have hnn : ¬ q.kind = "plugin-name" := by rw [hkind]; decide
      simp only [pluginLoop, if_neg hnn, if_pos hkind,
        pluginVersionParse_bad q.data hlen]
    · have hex : ∃ q ∈ rest, q.kind = "plugin-version"
          ∧ 3 ≤ (pySplitOnEC q.data).length := ⟨q, hqr, hkind, hlen⟩
      by_cases hx1 : x.kind = "plugin-name"
      · simp only [pluginLoop, if_pos hx1]
        cases nm with
        | some n => simp only [ih _ _ _ hex, Except.map]
        | none => exact ih _ _ _ hex
      · by_cases hx2 : x.kind = "plugin-version"
        · simp only [pluginLoop, if_neg hx1, if_pos hx2]
          cases hv : pluginVersionParse x.data with
          | ok pr => exact ih _ _ _ hex
          | error e => rw [pluginVersionParse_error_eq x.data e hv]
        · simp only [pluginLoop, if_neg hx1, if_neg hx2]
          exact ih _ _ _ hex

/-- C10: any decoded stream containing a plugin-version quadruple whose data
field contains the escaped-comma token two or more times (so the split has
three or more parts) makes `parse_plugin_list` fail with the unhandled
`ValueError` of the two-element tuple unpacking — it returns neither plugin
records nor a `ParseError`. -/
theorem C10_double_token (qs : List Quad) (q : Quad) (hmem : q ∈ qs)
    (hkind : q.kind = "plugin-version")
    (hsplit : 3 ≤ (pySplitOnEC q.data).length) :
    parse_plugin_list qs = .error .valueError :=
  pluginLoop_error_of_bad qs none none false ⟨q, hmem, hkind, hsplit⟩

/-- Witness for C10 at a concrete stream whose plugin-version data embeds
the escaped-comma token twice. -/
theorem C10_witness :
    ((⟨"t","p","plugin-version","a%!(VAGRANT_COMMA)b%!(VAGRANT_COMMA)c"⟩ : Quad)
        ∈ ([⟨"t","","plugin-name","p"⟩,
            ⟨"t","p","plugin-version","a%!(VAGRANT_COMMA)b%!(VAGRANT_COMMA)c"⟩] : List Quad))
    ∧ 3 ≤ (pySplitOnEC "a%!(VAGRANT_COMMA)b%!(VAGRANT_COMMA)c").length
    ∧ parse_plugin_list
        [⟨"t","","plugin-name","p"⟩,
         ⟨"t","p","plugin-version","a%!(VAGRANT_COMMA)b%!(VAGRANT_COMMA)c"⟩]
      = .error .valueError :=
  ⟨by decide, by decide,
   C10_double_token
     [⟨"t","","plugin-name","p"⟩,
      ⟨"t","p","plugin-version","a%!(VAGRANT_COMMA)b%!(VAGRANT_COMMA)c"⟩]
     ⟨"t","p","plugin-version","a%!(VAGRANT_COMMA)b%!(VAGRANT_COMMA)c"⟩
     (by decide) rfl (by decide)⟩

/-! ### Cache model for `suspend`/`halt`/`destroy` and `conf` -/

/-- A parsed configuration mapping (the result of `_parse_config`). -/
abbrev ConfMap := String → Option String

/-- The `_cached_conf` dict, keyed by the optional VM name.  `none` stands
both for a missing key and for an entry explicitly set to `None`: the code
only ever tests `self._cached_conf.get(vm_name) is None`, which conflates
the two. -/
abbrev ConfCache := Option String → Option ConfMap

/-- Cache effect of `Vagrant.suspend`:
`self._cached_conf[vm_name] = None`. -/
def suspendCacheEffect (cache : ConfCache) (vm_name : Option String) : ConfCache :=
  fun k => if k = vm_name then none else cache k

/-- Cache effect of `Vagrant.halt`:
`self._cached_conf[vm_name] = None`. -/
def haltCacheEffect (cache : ConfCache) (vm_name : Option String) : ConfCache :=
  fun k => if k = vm_name then none else cache k

/-- Cache effect of `Vagrant.destroy`:
`self._cached_conf[vm_name] = None`. -/
def destroyCacheEffect (cache : ConfCache) (vm_name : Option String) : ConfCache :=
  fun k => if k = vm_name then none else cache k

/-- Embedding of `Vagrant.conf`: recompute and re-cache when the cached
entry is `None`/missing or an explicit `ssh_config` is supplied, otherwise
return the cached mapping.  The external `ssh_config()` subprocess call is
modelled by an oracle from the VM name to its output text. -/
def confCall (sshConfigOracle : Option String → String) (cache : ConfCache)
    (ssh_config : Option String) (vm_name : Option String) :
    Except PyErr (ConfCache × ConfMap) :=
  if (cache vm_name).isNone || ssh_config.isSome then
    let sc := match ssh_config with
      | some s => s
      | none => sshConfigOracle vm_name
    match parse_config sc with
    | .ok c => .ok (fun k => if k = vm_name then some c else cache k, c)
    | .error e => .error e
  else
    match cache vm_name with
    | some c => .ok (cache, c)
    | none => .error .keyError

/-- C9: each of the lifecycle cache effects of `suspend`, `halt` and
`destroy` invalidates exactly the memoized configuration entry of the
operation's target — the entry becomes absent, every other target's entry
is unchanged — and a subsequent `conf` call for that target takes the
recompute path: it calls the ssh-config oracle and parses its output afresh
instead of returning any previously cached mapping. -/
theorem C9_cache_invalidation :
    (∀ (cache : ConfCache) (t : Option String),
      suspendCacheEffect cache t t = none
      ∧ haltCacheEffect cache t t = none
      ∧ destroyCacheEffect cache t t = none)
    ∧ (∀ (cache : ConfCache) (t t' : Option String), t' ≠ t →
      suspendCacheEffect cache t t' = cache t'
      ∧ haltCacheEffect cache t t' = cache t'
      ∧ destroyCacheEffect cache t t' = cache t')
    ∧ (∀ (oracle : Option String → String) (cache : ConfCache) (t : Option String),
      confCall oracle (haltCacheEffect cache t) none t
        = match parse_config (oracle t) with
          | .ok c => .ok (fun k => if k = t then some c else haltCacheEffect cache t k, c)
          | .error e => .error e) := by
  refine ⟨?_, ?_, ?_⟩
  · intro cache t
    exact ⟨if_pos rfl, if_pos rfl, if_pos rfl⟩
  · intro cache t t' h
    exact ⟨if_neg h, if_neg h, if_neg h⟩
  · intro oracle cache t
    unfold confCall
    rw [show haltCacheEffect cache t t = none from if_pos rfl]
    rfl

/-- Witness for C9: a two-target cache where `web` is invalidated while
`db` is untouched, and `conf` recomputes for `web`. -/
theorem C9_witness :
    ((some "db" : Option String) ≠ some "web"
      ∧ suspendCacheEffect (fun _ => none) (some "web") (some "db")
          = (fun _ : Option String => (none : Option ConfMap)) (some "db"))
    ∧ confCall (fun _ => "Host v") (haltCacheEffect (fun _ => none) (some "web"))
        none (some "web")
        = match parse_config "Host v" with
          | .ok c => .ok (fun k => if k = some "web" then some c
              else haltCacheEffect (fun _ => none) (some "web") k, c)
          | .error e => .error e :=
  ⟨⟨by decide,
    (C9_cache_invalidation.2.1 (fun _ => none) (some "web") (some "db") (by decide)).1⟩,
   C9_cache_invalidation.2.2 (fun _ => "Host v") (fun _ => none) (some "web")⟩
